import Mathlib

/-
Verification development for the git-dumper repository (src/git_parsing.rs,
src/dump_git.rs, src/main.rs).

Modelling conventions:
- Rust byte slices (`&[u8]`, `Vec<u8>`) are `List Nat` (called `Bytes`); every
  byte of a real input is < 256, but the definitions do not depend on that.
- Rust `String`/`&str` values are `List Char` while being processed and are
  converted back to their UTF-8 bytes (`utf8Encode`) where the source moves a
  string into a `DownloadedFile.path` or measures `str::len` (which is a byte
  length in Rust).
- UTF-8 decoding (`std::str::from_utf8`, `String::from_utf8_lossy`) is
  implemented concretely below, including the "maximal subpart" replacement
  policy of the lossy decoder.
- zlib decompression (the external miniz_oxide crate) is not code of this
  repository; a compressed input is therefore modelled by its two observable
  decompression outcomes, see `FileBytes`: `peek` is the result of the
  6-byte bounded inflate done by `peek_object_type` (`none` = inflate error)
  and `full` is the result of `decompress_to_vec_zlib` (`none` = error).
- A Rust panic (a failed `assert_eq!` or an out-of-char-boundary slice) is
  modelled as `none` / `QOutcome.panic`.
- The regexes of the source are modelled character-class by character-class.
  The regex crate's `\d` is Unicode-aware: in `REGEX_HASH`'s class `[a-f\d]`
  it is modelled by the full Unicode 15.0 Decimal_Number table (`isNd`). In
  the byte-level search model of the unanchored `REGEX_OBJECT_PATH`
  (`isHexByte`), `\d` is narrowed to the ASCII digits: a Unicode-digit match
  would need 38 class characters inside a 38-byte window, so on every path
  the crawler itself builds (ASCII seed paths, `refs/heads/...` targets and
  `hash_to_url` outputs of byte length 40) the narrowed guard and the real
  guard coincide.
-/

/-- Byte strings: Rust `&[u8]` / `Vec<u8>`. -/
abbrev Bytes := List Nat

/-- UTF-8 bytes of an ASCII string literal (used only on ASCII literals,
where the UTF-8 encoding is the identity on code points). -/
def ascii (s : String) : Bytes := s.toList.map Char.toNat

/-- UTF-8 encoding of one character (1 to 4 bytes). -/
def utf8EncodeChar (c : Char) : Bytes :=
  let n := c.toNat
  if n < 0x80 then [n]
  else if n < 0x800 then [0xC0 + n / 0x40, 0x80 + n % 0x40]
  else if n < 0x10000 then [0xE0 + n / 0x1000, 0x80 + (n / 0x40) % 0x40, 0x80 + n % 0x40]
  else [0xF0 + n / 0x40000, 0x80 + (n / 0x1000) % 0x40, 0x80 + (n / 0x40) % 0x40, 0x80 + n % 0x40]

/-- UTF-8 encoding of a string, as Rust's `str::as_bytes` / `String::into_bytes`. -/
def utf8Encode (l : List Char) : Bytes := (l.map utf8EncodeChar).flatten

/-- Unicode white space, as Rust's `char::is_whitespace` and the `regex`
crate's `\s` class (the characters with the White_Space property). -/
def isWs (c : Char) : Bool :=
  let n := c.toNat
  decide (n = 0x9 ∨ n = 0xA ∨ n = 0xB ∨ n = 0xC ∨ n = 0xD ∨ n = 0x20 ∨ n = 0x85 ∨
    n = 0xA0 ∨ n = 0x1680 ∨ (0x2000 ≤ n ∧ n ≤ 0x200A) ∨ n = 0x2028 ∨ n = 0x2029 ∨
    n = 0x202F ∨ n = 0x205F ∨ n = 0x3000)

/-- Strict UTF-8 decoding, as `std::str::from_utf8`: rejects overlong forms,
surrogates and code points above 0x10FFFF. `none` models `Utf8Error`. -/
def utf8Decode : Bytes → Option (List Char)
  | [] => some []
  | b1 :: rest =>
    if b1 < 0x80 then
      (utf8Decode rest).map (fun cs => Char.ofNat b1 :: cs)
    else if 0xC2 ≤ b1 ∧ b1 ≤ 0xDF then
      match rest with
      | b2 :: rest2 =>
        if 0x80 ≤ b2 ∧ b2 ≤ 0xBF then
          (utf8Decode rest2).map (fun cs => Char.ofNat ((b1 - 0xC0) * 0x40 + (b2 - 0x80)) :: cs)
        else none
      | [] => none
    else if 0xE0 ≤ b1 ∧ b1 ≤ 0xEF then
      match rest with
      | b2 :: rest2 =>
        if (b1 = 0xE0 ∧ 0xA0 ≤ b2 ∧ b2 ≤ 0xBF) ∨
           (0xE1 ≤ b1 ∧ b1 ≤ 0xEC ∧ 0x80 ≤ b2 ∧ b2 ≤ 0xBF) ∨
           (b1 = 0xED ∧ 0x80 ≤ b2 ∧ b2 ≤ 0x9F) ∨
           (0xEE ≤ b1 ∧ 0x80 ≤ b2 ∧ b2 ≤ 0xBF) then
          match rest2 with
          | b3 :: rest3 =>
            if 0x80 ≤ b3 ∧ b3 ≤ 0xBF then
              (utf8Decode rest3).map (fun cs =>
                Char.ofNat ((b1 - 0xE0) * 0x1000 + (b2 - 0x80) * 0x40 + (b3 - 0x80)) :: cs)
            else none
          | [] => none
        else none
      | [] => none
    else if 0xF0 ≤ b1 ∧ b1 ≤ 0xF4 then
      match rest with
      | b2 :: rest2 =>
        if (b1 = 0xF0 ∧ 0x90 ≤ b2 ∧ b2 ≤ 0xBF) ∨
           (0xF1 ≤ b1 ∧ b1 ≤ 0xF3 ∧ 0x80 ≤ b2 ∧ b2 ≤ 0xBF) ∨
           (b1 = 0xF4 ∧ 0x80 ≤ b2 ∧ b2 ≤ 0x8F) then
          match rest2 with
          | b3 :: rest3 =>
            if 0x80 ≤ b3 ∧ b3 ≤ 0xBF then
              match rest3 with
              | b4 :: rest4 =>
                if 0x80 ≤ b4 ∧ b4 ≤ 0xBF then
                  (utf8Decode rest4).map (fun cs =>
                    Char.ofNat ((b1 - 0xF0) * 0x40000 + (b2 - 0x80) * 0x1000 +
                      (b3 - 0x80) * 0x40 + (b4 - 0x80)) :: cs)
                else none
              | [] => none
            else none
          | [] => none
        else none
      | [] => none
    else none

/-- The replacement character U+FFFD emitted by the lossy decoder. -/
def replChar : Char := Char.ofNat 0xFFFD

/-- Worker for `utf8DecodeLossy`. Each step consumes at least one byte, so
fuel equal to the byte count is always enough; the fuel argument only makes
the recursion structural (every recursive call resumes at a strict suffix
of the input). -/
def utf8DecodeLossyGo : Nat → Bytes → List Char
  | 0, _ => []
  | _, [] => []
  | fuel + 1, b1 :: rest =>
    if b1 < 0x80 then
      Char.ofNat b1 :: utf8DecodeLossyGo fuel rest
    else if 0xC2 ≤ b1 ∧ b1 ≤ 0xDF then
      match rest with
      | b2 :: rest2 =>
        if 0x80 ≤ b2 ∧ b2 ≤ 0xBF then
          Char.ofNat ((b1 - 0xC0) * 0x40 + (b2 - 0x80)) :: utf8DecodeLossyGo fuel rest2
        else replChar :: utf8DecodeLossyGo fuel rest
      | [] => [replChar]
    else if 0xE0 ≤ b1 ∧ b1 ≤ 0xEF then
      match rest with
      | b2 :: rest2 =>
        if (b1 = 0xE0 ∧ 0xA0 ≤ b2 ∧ b2 ≤ 0xBF) ∨
           (0xE1 ≤ b1 ∧ b1 ≤ 0xEC ∧ 0x80 ≤ b2 ∧ b2 ≤ 0xBF) ∨
           (b1 = 0xED ∧ 0x80 ≤ b2 ∧ b2 ≤ 0x9F) ∨
           (0xEE ≤ b1 ∧ 0x80 ≤ b2 ∧ b2 ≤ 0xBF) then
          match rest2 with
          | b3 :: rest3 =>
            if 0x80 ≤ b3 ∧ b3 ≤ 0xBF then
              Char.ofNat ((b1 - 0xE0) * 0x1000 + (b2 - 0x80) * 0x40 + (b3 - 0x80)) ::
                utf8DecodeLossyGo fuel rest3
            else replChar :: utf8DecodeLossyGo fuel rest2
          | [] => [replChar]
        else replChar :: utf8DecodeLossyGo fuel rest
      | [] => [replChar]
    else if 0xF0 ≤ b1 ∧ b1 ≤ 0xF4 then
      match rest with
      | b2 :: rest2 =>
        if (b1 = 0xF0 ∧ 0x90 ≤ b2 ∧ b2 ≤ 0xBF) ∨
           (0xF1 ≤ b1 ∧ b1 ≤ 0xF3 ∧ 0x80 ≤ b2 ∧ b2 ≤ 0xBF) ∨
           (b1 = 0xF4 ∧ 0x80 ≤ b2 ∧ b2 ≤ 0x8F) then
          match rest2 with
          | b3 :: rest3 =>
            if 0x80 ≤ b3 ∧ b3 ≤ 0xBF then
              match rest3 with
              | b4 :: rest4 =>
                if 0x80 ≤ b4 ∧ b4 ≤ 0xBF then
                  Char.ofNat ((b1 - 0xF0) * 0x40000 + (b2 - 0x80) * 0x1000 +
                    (b3 - 0x80) * 0x40 + (b4 - 0x80)) :: utf8DecodeLossyGo fuel rest4
                else replChar :: utf8DecodeLossyGo fuel rest3
              | [] => [replChar]
            else replChar :: utf8DecodeLossyGo fuel rest2
          | [] => [replChar]
        else replChar :: utf8DecodeLossyGo fuel rest
      | [] => [replChar]
    else replChar :: utf8DecodeLossyGo fuel rest

/-- Lossy UTF-8 decoding, as `String::from_utf8_lossy`: each maximal subpart
of an ill-formed sequence becomes one U+FFFD. -/
def utf8DecodeLossy (l : Bytes) : List Char := utf8DecodeLossyGo l.length l

/-- Remove one trailing carriage return, as the per-line step of `str::lines`. -/
def stripCR (l : List Char) : List Char :=
  if l.getLast? = some '\r' then l.dropLast else l

/-- Worker for `rustLines`: split at each newline, stripping a carriage
return before every newline found. -/
def linesGo (acc : List Char) : List Char → List (List Char)
  | [] => [acc]
  | c :: rest => if c = '\n' then stripCR acc :: linesGo [] rest else linesGo (acc ++ [c]) rest

/-- Rust `str::lines`: lines split on newline with `\r\n` endings stripped;
a final line ending is optional, and a lone trailing `\r` (with no newline
after it) is kept. -/
def rustLines (s : List Char) : List (List Char) :=
  match s with
  | [] => []
  | c :: rest => if (c :: rest).getLast? = some '\n' then (linesGo [] (c :: rest)).dropLast
                 else linesGo [] (c :: rest)

/-- Rust `str::split_once`: split at the first occurrence of `c`. -/
def splitOnce (c : Char) : List Char → Option (List Char × List Char)
  | [] => none
  | x :: xs =>
    if x = c then some ([], xs)
    else (splitOnce c xs).map (fun p => (x :: p.1, p.2))

/-- Rust `str::split(['/', '\\'])`: the pieces between slash or backslash
separators (with empty pieces kept, as in Rust). -/
def splitSlashes : List Char → List (List Char)
  | [] => [[]]
  | c :: rest =>
    if c = '/' ∨ c = '\\' then [] :: splitSlashes rest
    else
      match splitSlashes rest with
      | [] => [[c]]
      | p :: ps => (c :: p) :: ps

/-- Rust `str::trim_end` (drop trailing white space). -/
def trimEnd (l : List Char) : List Char := (l.reverse.dropWhile isWs).reverse

/-- Rust `str::trim` (drop leading and trailing white space). -/
def rustTrim (l : List Char) : List Char := trimEnd (l.dropWhile isWs)

/-- Membership of `n` in a closed range (one alternative of a regex class). -/
def inNatRange (lo hi n : Nat) : Bool := decide (lo ≤ n ∧ n ≤ hi)

/-- A Unicode decimal digit: the regex crate's `\\d`, which is Unicode-aware
by default and matches the General_Category=Decimal_Number (`\\p{Nd}`)
characters — the ranges of Unicode 15.0, 680 code points. -/
def isNd (c : Char) : Bool :=
  let n := c.toNat
  inNatRange 0x30 0x39 n || inNatRange 0x660 0x669 n || inNatRange 0x6F0 0x6F9 n ||
    inNatRange 0x7C0 0x7C9 n || inNatRange 0x966 0x96F n || inNatRange 0x9E6 0x9EF n ||
    inNatRange 0xA66 0xA6F n || inNatRange 0xAE6 0xAEF n || inNatRange 0xB66 0xB6F n ||
    inNatRange 0xBE6 0xBEF n || inNatRange 0xC66 0xC6F n || inNatRange 0xCE6 0xCEF n ||
    inNatRange 0xD66 0xD6F n || inNatRange 0xDE6 0xDEF n || inNatRange 0xE50 0xE59 n ||
    inNatRange 0xED0 0xED9 n || inNatRange 0xF20 0xF29 n || inNatRange 0x1040 0x1049 n ||
    inNatRange 0x1090 0x1099 n || inNatRange 0x17E0 0x17E9 n || inNatRange 0x1810 0x1819 n ||
    inNatRange 0x1946 0x194F n || inNatRange 0x19D0 0x19D9 n || inNatRange 0x1A80 0x1A89 n ||
    inNatRange 0x1A90 0x1A99 n || inNatRange 0x1B50 0x1B59 n || inNatRange 0x1BB0 0x1BB9 n ||
    inNatRange 0x1C40 0x1C49 n || inNatRange 0x1C50 0x1C59 n || inNatRange 0xA620 0xA629 n ||
    inNatRange 0xA8D0 0xA8D9 n || inNatRange 0xA900 0xA909 n || inNatRange 0xA9D0 0xA9D9 n ||
    inNatRange 0xA9F0 0xA9F9 n || inNatRange 0xAA50 0xAA59 n || inNatRange 0xABF0 0xABF9 n ||
    inNatRange 0xFF10 0xFF19 n || inNatRange 0x104A0 0x104A9 n || inNatRange 0x10D30 0x10D39 n ||
    inNatRange 0x11066 0x1106F n || inNatRange 0x110F0 0x110F9 n ||
    inNatRange 0x11136 0x1113F n || inNatRange 0x111D0 0x111D9 n ||
    inNatRange 0x112F0 0x112F9 n || inNatRange 0x11450 0x11459 n ||
    inNatRange 0x114D0 0x114D9 n || inNatRange 0x11650 0x11659 n ||
    inNatRange 0x116C0 0x116C9 n || inNatRange 0x11730 0x11739 n ||
    inNatRange 0x118E0 0x118E9 n || inNatRange 0x11950 0x11959 n ||
    inNatRange 0x11C50 0x11C59 n || inNatRange 0x11D50 0x11D59 n ||
    inNatRange 0x11DA0 0x11DA9 n || inNatRange 0x11F50 0x11F59 n ||
    inNatRange 0x16A60 0x16A69 n || inNatRange 0x16AC0 0x16AC9 n ||
    inNatRange 0x16B50 0x16B59 n || inNatRange 0x1D7CE 0x1D7FF n ||
    inNatRange 0x1E140 0x1E149 n || inNatRange 0x1E2F0 0x1E2F9 n ||
    inNatRange 0x1E4F0 0x1E4F9 n || inNatRange 0x1E950 0x1E959 n || inNatRange 0x1FBF0 0x1FBF9 n

/-- One character of the class `[a-f\d]` of `REGEX_HASH`: lowercase `a`-`f`
or a Unicode decimal digit (`\d` is Unicode-aware in the regex crate, so the
class is wider than the hexadecimal digits). -/
def isHexDigitLower (c : Char) : Bool := decide ('a' ≤ c ∧ c ≤ 'f') || isNd c

/-- The regex `^[a-f\d]{40}$` (`REGEX_HASH` in src/git_parsing.rs): exactly
40 characters, each in the class `[a-f\d]`. -/
def isHash40 (l : List Char) : Bool := l.length = 40 && l.all isHexDigitLower

/-- The all-zero sentinel `EMPTY_HASH` of src/git_parsing.rs. -/
def EMPTY_HASH : List Char := List.replicate 40 '0'

/-- The regex `^refs/heads/(\S+)$` (`REGEX_REFS_PATH` in src/git_parsing.rs):
the whole string is `refs/heads/` followed by one or more non-white-space
characters. -/
def refsPathMatch (l : List Char) : Bool :=
  l.take 11 = ("refs/heads/").toList && decide (l.drop 11 ≠ []) &&
    (l.drop 11).all (fun c => !isWs c)

/-- src/git_parsing.rs `parse_head`: UTF-8 decode, require the `ref: `
prefix, trim the remainder, match `REGEX_REFS_PATH`, reject `..` path
segments (split on `/` and `\`). The returned ref path is rendered back to
its UTF-8 bytes (the caller stores it as a candidate path). `none` models
the `Err` results. -/
def parse_head (data : Bytes) : Option Bytes :=
  match utf8Decode data with
  | none => none
  | some content =>
    if content.take 5 = ("ref: ").toList then
      let c := trimEnd (content.drop 5)
      if refsPathMatch c then
        if (splitSlashes c).any (fun seg => seg = ['.', '.']) then none
        else some (utf8Encode c)
      else none
    else none

/-- src/git_parsing.rs `parse_hash`: UTF-8 decode, trim the end, match
`REGEX_HASH`. -/
def parse_hash (data : Bytes) : Option (List Char) :=
  match utf8Decode data with
  | none => none
  | some content =>
    let c := trimEnd content
    if isHash40 c then some c else none

/-- Insertion into the model of the `HashSet<String>` built by `parse_log`
(kept as a duplicate-free list in first-insertion order; all claims about it
are membership claims). -/
def insertHash (s : List (List Char)) (h : List Char) : List (List Char) :=
  if h ∈ s then s else s ++ [h]

/-- src/git_parsing.rs `parse_log`: lossy-decode, and for every line take
the first two space-separated fields; each field matching `REGEX_HASH` and
different from `EMPTY_HASH` enters the result set. The source wraps the set
in `Ok`; it has no error path, so the model returns the set directly. -/
def logStep (set : List (List Char)) (line : List Char) : List (List Char) :=
  -- loop body of `parse_log`: first two space-separated fields of one line

  let p1 := (splitOnce ' ' line).getD ([], [])
  let p2 := (splitOnce ' ' p1.2).getD ([], [])
  let set1 := if isHash40 p1.1 && decide (p1.1 ≠ EMPTY_HASH) then insertHash set p1.1 else set
  if isHash40 p2.1 && decide (p2.1 ≠ EMPTY_HASH) then insertHash set1 p2.1 else set1

/-- The whole `parse_log` loop: fold `logStep` over the lines. -/
def parse_log (data : Bytes) : List (List Char) :=
  (rustLines (utf8DecodeLossy data)).foldl logStep []

/-- A downloaded file's bytes, together with the two observable outcomes of
zlib-decompressing them (zlib lives in the external miniz_oxide crate, so it
is modelled by its results): `peek` is the 6-byte bounded inflate performed
by `peek_object_type` (`none` = inflate error; when the decompressed stream
is shorter than 6 bytes the array stays zero-padded, as in the source), and
`full` is `decompress_to_vec_zlib` (`none` = inflate error). -/
structure FileBytes where
  raw : Bytes
  peek : Option Bytes
  full : Option Bytes
  deriving DecidableEq

/-- src/git_parsing.rs `GitObject`. Tree hashes are the hex strings produced
by `slice_to_hex` (ASCII bytes); commit hashes are the UTF-8 bytes of the
header remainders. -/
inductive GitObject where
  | Tree (hashes : List Bytes)
  | Commit (hashes : List Bytes)
  | Blob
  deriving DecidableEq

/-- src/git_parsing.rs `peek_object_type`: the bounded 6-byte inflate,
modelled by the `peek` observation of the input. -/
def peek_object_type (f : FileBytes) : Option Bytes := f.peek

/-- src/git_parsing.rs `split_object_at_zero`: everything after the first
NUL byte; `none` when there is no NUL. -/
def split_object_at_zero (data : Bytes) : Option Bytes :=
  match data.dropWhile (fun b => b ≠ 0) with
  | [] => none
  | _ :: rest => some rest

/-- One hex digit (lowercase), as the `{:02x}` formatting in `slice_to_hex`. -/
def hexDigitAscii (n : Nat) : Nat := if n < 10 then 48 + n else 87 + n

/-- src/git_parsing.rs `slice_to_hex`: each byte becomes two lowercase hex
characters. -/
def slice_to_hex (data : Bytes) : Bytes :=
  (data.map (fun b => [hexDigitAscii (b / 16), hexDigitAscii (b % 16)])).flatten

/-- Worker for `tree_hashes`, modelling the iterator loop of the `tree`
branch of `parse_object`. The `none` state seeks the next NUL separator
(`skip_while(|b| b != 0).skip(1)`); `some (n, acc)` is in the middle of
collecting the `take(0x14)` hash bytes, with `n` bytes still to take and
`acc` the bytes taken so far. Exhausting the input while seeking pushes the
hex of an empty slice (exactly as the source's `skip_while` that never finds
a NUL collects an empty `bytes` vector and pushes an empty string); exhausting
it mid-hash pushes the short hash collected so far. -/
def treeGo : Bytes → Option (Nat × Bytes) → List Bytes
  | [], none => [slice_to_hex []]
  | [], some (_, acc) => [slice_to_hex acc]
  | b :: rest, none =>
    if b = 0 then treeGo rest (some (20, [])) else treeGo rest none
  | b :: rest, some (n, acc) =>
    if n ≤ 1 then
      slice_to_hex (acc ++ [b]) :: (if rest.isEmpty then [] else treeGo rest none)
    else treeGo rest (some (n - 1, acc ++ [b]))

/-- The hash list produced by the `tree` branch of `parse_object`: the
`while decompressed_iter.peek().is_some()` loop body runs only while bytes
remain. -/
def tree_hashes (body : Bytes) : List Bytes :=
  match body with
  | [] => []
  | b :: rest => treeGo (b :: rest) none

/-- The per-line step of the `commit` branch of `parse_object`:
`line.split_once(' ')` matched against `("tree", hash)` and
`("parent", hash)`. -/
def commitLineHash (line : List Char) : Option Bytes :=
  match splitOnce ' ' line with
  | some (w, h) =>
    if w = ("tree").toList then some (utf8Encode h)
    else if w = ("parent").toList then some (utf8Encode h)
    else none
  | none => none

/-- src/git_parsing.rs `parse_object`: peek 6 decompressed bytes to classify
the object; `blob` returns immediately without full decompression; `tree`
and `commit` fully decompress, split at the first NUL and parse the body.
`none` models every `Err` (peek failure, decompression failure, missing NUL
separator, unknown header). -/
def parse_object (f : FileBytes) : Option GitObject :=
  match peek_object_type f with
  | none => none
  | some peeked =>
    match peeked with
    | 98 :: 108 :: 111 :: 98 :: _ :: _ :: [] => some GitObject.Blob
    | 116 :: 114 :: 101 :: 101 :: _ :: _ :: [] =>
      match f.full with
      | none => none
      | some decompressed =>
        match split_object_at_zero decompressed with
        | none => none
        | some body => some (GitObject.Tree (tree_hashes body))
    | 99 :: 111 :: 109 :: 109 :: 105 :: 116 :: [] =>
      match f.full with
      | none => none
      | some decompressed =>
        match split_object_at_zero decompressed with
        | none => none
        | some body =>
          some (GitObject.Commit
            (((rustLines (utf8DecodeLossy body)).takeWhile
                (fun line => !(rustTrim line).isEmpty)).filterMap commitLineHash))
    | _ => none

/-- src/dump_git.rs `START_FILES`, the seed path list. -/
def start_files : List Bytes :=
  [ascii "info/exclude", ascii "logs/HEAD", ascii "objects/info/packs", ascii "config",
   ascii "COMMIT_EDITMSG", ascii "description", ascii "FETCH_HEAD", ascii "HEAD",
   ascii "index", ascii "ORIG_HEAD", ascii "packed-refs", ascii "refs/remotes/origin/HEAD"]

/-- A UTF-8 continuation byte (`!is_char_boundary` at a non-first position). -/
def isContByte (b : Nat) : Bool := decide (0x80 ≤ b ∧ b < 0xC0)

/-- src/dump_git.rs `hash_to_url`: `objects/<first2>/<last38>`. The
`assert_eq!(hash.len(), 40)` panic (Rust `str::len` is a byte length) and
the `&hash[0..2]` / `&hash[2..]` char-boundary panic are modelled as `none`. -/
def hash_to_url (hash : Bytes) : Option Bytes :=
  if hash.length = 40 then
    if isContByte (hash.getD 2 0) then none
    else some (ascii "objects/" ++ hash.take 2 ++ [47] ++ hash.drop 2)
  else none

/-- One byte of the class `[\da-f]` of `REGEX_OBJECT_PATH`, with `\d`
narrowed to the ASCII digits (the real class also holds the Unicode decimal
digits, but on the ASCII paths the crawler builds — seeds, ref targets and
`hash_to_url` outputs — the two guards coincide; see the header comment). -/
def isHexByte (b : Nat) : Bool := decide ((48 ≤ b ∧ b ≤ 57) ∨ (97 ≤ b ∧ b ≤ 102))

/-- Whether the regex `[\da-f]{2}/[\da-f]{38}` matches at the start of `xs`. -/
def objMatchAt (xs : Bytes) : Bool :=
  match xs with
  | a :: b :: s :: rest =>
    isHexByte a && isHexByte b && s = 47 && decide (38 ≤ rest.length) && (rest.take 38).all isHexByte
  | _ => false

/-- src/dump_git.rs `REGEX_OBJECT_PATH.is_match`: the regex
`[\da-f]{2}/[\da-f]{38}` is unanchored, so `is_match` searches for the
pattern anywhere in the string. -/
def regex_object_path_match : Bytes → Bool
  | [] => false
  | b :: rest => objMatchAt (b :: rest) || regex_object_path_match rest

/-- The guard of the object arm of `queue_new_references`:
`n.starts_with("objects/") && REGEX_OBJECT_PATH.is_match(n)`. -/
def objectDispatch (n : Bytes) : Bool :=
  n.take 8 = ascii "objects/" && regex_object_path_match n

/-- How one call of `queue_new_references` ends: normally, with a returned
parse error (logged by the caller), or with a panic (which in the source
kills the spawned tokio task). -/
inductive QOutcome where
  | ok
  | parseError
  | panic
  deriving DecidableEq

/-- The messages sent over the channel by one `queue_new_references` call
(in send order) together with how the call ended. A panic keeps the sends
that happened before it. -/
structure QResult where
  sent : List Bytes
  outcome : QOutcome
  deriving DecidableEq

/-- Send `hash_to_url` of each hash in order, as the send loops of the
`logs/`, tree and commit arms; a `hash_to_url` panic aborts the loop, keeping
the earlier sends. -/
def sendAll : List Bytes → QResult
  | [] => ⟨[], QOutcome.ok⟩
  | h :: rest =>
    match hash_to_url h with
    | none => ⟨[], QOutcome.panic⟩
    | some url =>
      let r := sendAll rest
      ⟨url :: r.sent, r.outcome⟩

/-- src/dump_git.rs `queue_new_references`: dispatch on the downloaded
path's shape (in the source's match-arm order) and send the derived
candidate paths over the channel. -/
def queue_new_references (name : Bytes) (content : FileBytes) : QResult :=
  if name = ascii "HEAD" ∨ name = ascii "refs/remotes/origin/HEAD" then
    match parse_head content.raw with
    | none => ⟨[], QOutcome.parseError⟩
    | some refPath => ⟨[refPath], QOutcome.ok⟩
  else if name.take 11 = ascii "refs/heads/" ∨ name = ascii "ORIG_HEAD" then
    match parse_hash content.raw with
    | none => ⟨[], QOutcome.parseError⟩
    | some h =>
      match hash_to_url (utf8Encode h) with
      | none => ⟨[], QOutcome.panic⟩
      | some url => ⟨[url], QOutcome.ok⟩
  else if name.take 5 = ascii "logs/" then
    sendAll ((parse_log content.raw).map utf8Encode)
  else if objectDispatch name then
    match parse_object content with
    | none => ⟨[], QOutcome.parseError⟩
    | some GitObject.Blob => ⟨[], QOutcome.ok⟩
    | some (GitObject.Tree hashes) => sendAll hashes
    | some (GitObject.Commit hashes) => sendAll hashes
  else ⟨[], QOutcome.ok⟩

/-- The mock server seen by a crawl run: the finitely many paths it answers
with bytes. A path outside the list models a 404 or transport failure (the
`download` error branch). -/
def lookupOracle (p : Bytes) : List (Bytes × FileBytes) → Option FileBytes
  | [] => none
  | e :: rest => if e.1 = p then some e.2 else lookupOracle p rest

/-- Number of oracle entries not yet claimed in the cache (the termination
measure of a crawl: each successful fetch claims one of them). -/
def unfetched (oracle : List (Bytes × FileBytes)) (cache : List Bytes) : Nat :=
  match oracle with
  | [] => 0
  | e :: rest => (if e.1 ∈ cache then 0 else 1) + unfetched rest cache

/-- The receive loop of src/dump_git.rs `download_all`, which is the single
owner of the dedup cache: pop the next message; skip it if the cache already
contains the path; otherwise insert the path into the cache, attempt the
download (the oracle), and on success append the messages produced by
`queue_new_references` to the work queue. Returns the final cache and the
list of paths for which a download was started, in order. A failed download
or a failed parse only ends that path's branch: the loop continues with the
remaining messages. -/
def crawl (oracle : List (Bytes × FileBytes)) : List Bytes → List Bytes → List Bytes × List Bytes
  | cache, [] => (cache, [])
  | cache, p :: rest =>
    if hp : p ∈ cache then crawl oracle cache rest
    else
      let children :=
        match lookupOracle p oracle with
        | none => []
        | some fb => (queue_new_references p fb).sent
      let r := crawl oracle (p :: cache) (rest ++ children)
      (r.1, p :: r.2)
termination_by cache queue => (unfetched oracle cache, queue.length)
decreasing_by
· apply Prod.Lex.right
  simp
· have hmono : ∀ o : List (Bytes × FileBytes),
      unfetched o (p :: cache) ≤ unfetched o cache := by
    intro o
    induction o with
    | nil => exact Nat.le_refl _
    | cons e tl ih =>
      unfold unfetched
      by_cases he : e.1 ∈ cache
      · have he2 : e.1 ∈ p :: cache := List.mem_cons_of_mem _ he
        simp [he, he2]
        exact ih
      · by_cases he2 : e.1 ∈ p :: cache <;> simp [he, he2] <;> omega
  cases hfb : lookupOracle p oracle with
  | none =>
    have heq : ∀ o : List (Bytes × FileBytes), lookupOracle p o = none →
        unfetched o (p :: cache) = unfetched o cache := by
      intro o
      induction o with
      | nil => intro _; rfl
      | cons e tl ih =>
        intro hno
        unfold lookupOracle at hno
        by_cases he : e.1 = p
        · simp [he] at hno
        · simp only [he, if_false] at hno
          unfold unfetched
          rw [ih hno]
          by_cases hm : e.1 ∈ cache
          · have hm2 : e.1 ∈ p :: cache := List.mem_cons_of_mem _ hm
            simp [hm, hm2]
          · have hm2 : e.1 ∉ p :: cache := by simp [List.mem_cons, he, hm]
            simp [hm, hm2]
    simp only [hfb]
    rw [heq oracle hfb]
    apply Prod.Lex.right
    simp
  | some fb =>
    have hlt : ∀ o : List (Bytes × FileBytes), lookupOracle p o = some fb →
        unfetched o (p :: cache) < unfetched o cache := by
      intro o
      induction o with
      | nil => intro h0; exact absurd h0 (by simp [lookupOracle])
      | cons e tl ih =>
        intro hsome
        unfold lookupOracle at hsome
        by_cases he : e.1 = p
        · unfold unfetched
          have h1 : e.1 ∉ cache := he ▸ hp
          have h2 : e.1 ∈ p :: cache := by simp [he]
          simp only [h1, if_false, h2, if_true]
          have := hmono tl
          omega
        · simp only [he, if_false] at hsome
          unfold unfetched
          have := ih hsome
          by_cases hm : e.1 ∈ cache
          · have hm2 : e.1 ∈ p :: cache := List.mem_cons_of_mem _ hm
            simp only [hm, if_true, hm2]
            omega
          · have hm2 : e.1 ∉ p :: cache := by simp [List.mem_cons, he, hm]
            simp only [hm, if_false, hm2]
            omega
    exact Prod.Lex.left _ _ (hlt oracle hfb)

/-- src/dump_git.rs `download_all`: seed the channel with `START_FILES` and
run the receive loop with an empty cache. The base url, the local path and
the task bound do not affect which paths are claimed and downloaded. -/
def download_all (oracle : List (Bytes × FileBytes)) : List Bytes × List Bytes :=
  crawl oracle [] start_files

/-- Program position of the `download_all` loop body: `recv` is the top of
the `while let Some(message) = rx.recv()` loop, `wait` is the inner
`while threads.len() >= max_task_count` loop entered right after a spawn. -/
inductive Phase where
  | recv
  | wait
  deriving DecidableEq

/-- A configuration of the `download_all` scheduler together with its
spawned tasks: the pending channel messages (paths), the dedup cache,
`running` spawned-but-unfinished tasks (the concurrently executing
fetch+process operations) and `finished` tasks whose handles are still in
the `threads` vector, so that `threads.len() = running + finished`. -/
structure Cfg where
  phase : Phase
  queue : List Bytes
  cache : List Bytes
  running : Nat
  finished : Nat
  deriving DecidableEq

/-- The starting configuration of `download_all`: the seed paths queued, an
empty cache, no tasks. -/
def initCfg : Cfg := Cfg.mk Phase.recv start_files [] 0 0

/-- Atomic transitions of `download_all` under the operator-supplied task
bound `N` (`max_task_count`). `skip` and `spawn` are the two branches of the
receive loop (the cache test and insert happen in the single receiving
task); `spawn` starts one fetch+process task and enters the inner bounding
loop; `finishTask` is a task completing (possible at any time); `retain` is
`threads.retain(|h| !h.is_finished())`; `waitExit` leaves the inner loop,
which is only possible when `threads.len() < N`; `produce` is a running task
sending a newly derived candidate path into the channel. -/
inductive Step (N : Nat) : Cfg → Cfg → Prop where
  | skip (p : Bytes) (q c : List Bytes) (r f : Nat) (h : p ∈ c) :
      Step N (Cfg.mk Phase.recv (p :: q) c r f) (Cfg.mk Phase.recv q c r f)
  | spawn (p : Bytes) (q c : List Bytes) (r f : Nat) (h : p ∉ c) :
      Step N (Cfg.mk Phase.recv (p :: q) c r f) (Cfg.mk Phase.wait q (p :: c) (r + 1) f)
  | finishTask (ph : Phase) (q c : List Bytes) (r f : Nat) :
      Step N (Cfg.mk ph q c (r + 1) f) (Cfg.mk ph q c r (f + 1))
  | retain (q c : List Bytes) (r f : Nat) :
      Step N (Cfg.mk Phase.wait q c r f) (Cfg.mk Phase.wait q c r 0)
  | waitExit (q c : List Bytes) (r f : Nat) (h : r + f < N) :
      Step N (Cfg.mk Phase.wait q c r f) (Cfg.mk Phase.recv q c r f)
  | produce (ph : Phase) (q c : List Bytes) (m : Bytes) (r f : Nat) :
      Step N (Cfg.mk ph q c (r + 1) f) (Cfg.mk ph (q ++ [m]) c (r + 1) f)

/-- Configurations a crawl with bound `N` can reach. -/
def Reachable (N : Nat) (a b : Cfg) : Prop := Relation.ReflTransGen (Step N) a b

/-- Scheduler invariant used for the concurrency bound: at the top of the
receive loop the `threads` vector is strictly below the bound (it starts
empty, and the inner loop that precedes every return to `recv` after a spawn
only exits below the bound — for `N ≥ 1` the start state satisfies this
too), and right after a spawn it is at most the bound. -/
def concInv (N : Nat) (c : Cfg) : Prop :=
  (c.phase = Phase.recv → c.running + c.finished < N) ∧
  (c.phase = Phase.wait → c.running + c.finished ≤ N)

/-- The hash-extraction rule stated by the spec for commit bodies: header
lines before the first blank line that begin with `tree ` or `parent `
contribute the verbatim remainder of the line. Modelled from the spec's
words, to be compared with the `commit` branch of `parse_object`. -/
def commitHeaderHashes (body : Bytes) : List Bytes :=
  ((rustLines (utf8DecodeLossy body)).takeWhile
      (fun line => !(rustTrim line).isEmpty)).filterMap
    (fun line =>
      if line.take 5 = ("tree ").toList then some (utf8Encode (line.drop 5))
      else if line.take 7 = ("parent ").toList then some (utf8Encode (line.drop 7))
      else none)

/-- The exact loose-object path shape `objects/<2-hex>/<38-hex>` described
by the spec. Modelled from the spec's words, to be compared with the
dispatch guard `objectDispatch` of `queue_new_references`. -/
def exactObjectShape (n : Bytes) : Bool :=
  n.take 8 = ascii "objects/" &&
    (match n.drop 8 with
     | a :: b :: s :: rest =>
       isHexByte a && isHexByte b && s = 47 && decide (rest.length = 38) && rest.all isHexByte
     | _ => false)

/-- First field of line 1 of the reflog fixture of the spec (`aaaa...0`,
40 hex characters). -/
def logHashA : List Char := List.replicate 39 'a' ++ ['0']

/-- Second field of line 1 of the reflog fixture (`bbbb...1`). -/
def logHashB : List Char := List.replicate 39 'b' ++ ['1']

/-- First field of line 2 of the reflog fixture (`ffff...f`). -/
def logHashF : List Char := List.replicate 40 'f'

/-- Second field of line 2 of the reflog fixture: the all-zero sentinel. -/
def logHashZ : List Char := List.replicate 40 '0'

/-- The two-line reflog fixture of the spec:
`aaaa...0 bbbb...1 user 123\nffff...f 0000...0 user 456\n`. -/
def logFixture : Bytes :=
  utf8Encode (logHashA ++ [' '] ++ logHashB ++ (" user 123\n").toList ++
    logHashF ++ [' '] ++ logHashZ ++ (" user 456\n").toList)

/-- An exactly-shaped loose-object path `objects/aa/<38 a>`. -/
def c2Name : Bytes := ascii "objects/aa/" ++ List.replicate 38 97

/-- A downloaded commit object whose headers carry the all-zero hash
(`tree`) and a 40-character non-hex string (`parent`): decompressed content
`commit 99\0tree 000...0\nparent qqq...q`. -/
def c2File : FileBytes :=
  FileBytes.mk [] (some (ascii "commit"))
    (some (ascii "commit 99" ++ [0] ++ ascii "tree " ++ List.replicate 40 48 ++ [10] ++
      ascii "parent " ++ List.replicate 40 113))

/-- An exactly-shaped loose-object path `objects/bb/<38 b>`. -/
def c9Name : Bytes := ascii "objects/bb/" ++ List.replicate 38 98

/-- A downloaded commit object with a 3-character `tree` header remainder:
decompressed content `commit 9\0tree abc`. -/
def c9File : FileBytes :=
  FileBytes.mk [] (some (ascii "commit")) (some (ascii "commit 9" ++ [0] ++ ascii "tree abc"))

/-- A path under `objects/` that is not of the exact loose-object shape:
`objects/aa/` followed by 39 hex characters. -/
def c7Name : Bytes := ascii "objects/aa/" ++ List.replicate 39 97

/-- An exactly-shaped loose-object path `objects/cc/<38 c>`. -/
def c7ExactName : Bytes := ascii "objects/cc/" ++ List.replicate 38 99

/-- Commit body fixture of the spec: two headers, a blank line, then a
message containing a `parent`-shaped decoy. -/
def c5Body : Bytes := ascii "tree aaaa\nparent bbbb\n\nhello parent cccc\n"

/-- The full decompressed commit object around `c5Body`. -/
def c5Full : Bytes := ascii "commit 5" ++ [0] ++ c5Body

set_option maxRecDepth 200000

theorem mem_insertHash (s : List (List Char)) (x y : List Char) (h : y ∈ insertHash s x) :
    y ∈ s ∨ y = x := by
  unfold insertHash at h
  split at h
  · exact Or.inl h
  · rcases List.mem_append.mp h with h1 | h1
    · exact Or.inl h1
    · exact Or.inr (by simpa using h1)

theorem mem_logStep (s : List (List Char)) (line y : List Char) (h : y ∈ logStep s line) :
    y ∈ s ∨ (isHash40 y = true ∧ y ≠ EMPTY_HASH) := by
  unfold logStep at h
  dsimp only [] at h
  split at h
  · rename_i hc2
    rcases mem_insertHash _ _ _ h with h' | h'
    · split at h'
      · rename_i hc1
        rcases mem_insertHash _ _ _ h' with h'' | h''
        · exact Or.inl h''
        · subst h''
          simp only [Bool.and_eq_true, decide_eq_true_eq] at hc1
          exact Or.inr hc1
      · exact Or.inl h'
    · subst h'
      simp only [Bool.and_eq_true, decide_eq_true_eq] at hc2
      exact Or.inr hc2
  · split at h
    · rename_i hc1
      rcases mem_insertHash _ _ _ h with h'' | h''
      · exact Or.inl h''
      · subst h''
        simp only [Bool.and_eq_true, decide_eq_true_eq] at hc1
        exact Or.inr hc1
    · exact Or.inl h

theorem parse_log_only_valid_hashes (data : Bytes) :
    ∀ h ∈ parse_log data, isHash40 h = true ∧ h ≠ EMPTY_HASH := by
  unfold parse_log
  have H : ∀ (ls : List (List Char)) (acc : List (List Char)),
      (∀ x ∈ acc, isHash40 x = true ∧ x ≠ EMPTY_HASH) →
      ∀ x ∈ ls.foldl logStep acc, isHash40 x = true ∧ x ≠ EMPTY_HASH := by
    intro ls
    induction ls with
    | nil =>
      intro acc hacc x hx
      exact hacc x (by simpa using hx)
    | cons line rest ih =>
      intro acc hacc x hx
      simp only [List.foldl_cons] at hx
      refine ih (logStep acc line) ?_ x hx
      intro z hz
      rcases mem_logStep acc line z hz with h' | h'
      · exact hacc z h'
      · exact h'
  exact H _ [] (by simp)

theorem parse_hash_only_valid (data : Bytes) (h : List Char) (hh : parse_hash data = some h) :
    isHash40 h = true := by
  unfold parse_hash at hh
  cases hd : utf8Decode data with
  | none => rw [hd] at hh; simp at hh
  | some content =>
    rw [hd] at hh
    simp only [] at hh
    split at hh
    · rename_i hguard
      cases hh
      exact hguard
    · simp at hh

/-- C2 counterexample: a downloaded commit object whose headers are
`tree 000...0` (the all-zero sentinel) and `parent qqq...q` (40 non-hex
characters) gets both derived paths scheduled over the channel — the
all-zero hash is scheduled for download and no hex validation happens on
commit-header hashes; moreover even where `REGEX_HASH` validation does run,
it is not a lowercase-hex check: `parse_hash` accepts 40 fullwidth digits
`０` (U+FF10, a Unicode decimal digit matched by the regex crate's `\d`),
contradicting every part of the claim. -/
theorem c2_counterexample :
    ascii "objects/00/" ++ List.replicate 38 48 ∈ (queue_new_references c2Name c2File).sent ∧
    ascii "objects/qq/" ++ List.replicate 38 113 ∈ (queue_new_references c2Name c2File).sent ∧
    parse_hash (utf8Encode (List.replicate 40 (Char.ofNat 0xFF10))) =
      some (List.replicate 40 (Char.ofNat 0xFF10)) := by
  refine ⟨by decide, by decide, by decide⟩

/-- C2 amended: validation happens only for hashes discovered by `parse_log`
(reflogs) and `parse_hash` (ref files), and it checks `REGEX_HASH`'s class
`[a-f\d]{40}` — exactly 40 characters, each lowercase `a`-`f` or a Unicode
decimal digit, which is wider than the claimed lowercase hexadecimal shape
because the regex crate's `\d` is Unicode-aware; `parse_log` additionally
excludes the all-zero hash, `parse_hash` does not, and tree-entry and
commit-header hashes are not validated at all (see the counterexample). -/
theorem c2_hash_validation :
    (∀ (data : Bytes) (h : List Char), h ∈ parse_log data → isHash40 h = true ∧ h ≠ EMPTY_HASH) ∧
    (∀ (data : Bytes) (h : List Char), parse_hash data = some h → isHash40 h = true) :=
  ⟨fun data h hm => parse_log_only_valid_hashes data h hm,
   fun data h hh => parse_hash_only_valid data h hh⟩

/-- C2 witness: the reflog fixture's `ffff...f` hash is 40-hex and not the
sentinel. -/
theorem c2_witness : isHash40 logHashF = true ∧ logHashF ≠ EMPTY_HASH :=
  c2_hash_validation.1 logFixture logHashF (by decide)

/-- C6 counterexample: on the spec's two-line reflog fixture, the first
line's old hash `aaaa...0` (40 hex characters, not the sentinel, not
malformed) is in the result set too, so the result is not exactly
`{bbbb...1, ffff...f}`. -/
theorem c6_counterexample :
    logHashA ∈ parse_log logFixture ∧ logHashA ≠ logHashB ∧ logHashA ≠ logHashF := by
  decide

/-- C6 amended: on the two-line reflog fixture the result set is exactly
`{aaaa...0, bbbb...1, ffff...f}` — both fields of each line are taken, and
only the all-zero hash (and any malformed field) is excluded. -/
theorem c6_parse_log_fixture :
    ∀ h : List Char, h ∈ parse_log logFixture ↔ (h = logHashA ∨ h = logHashB ∨ h = logHashF) := by
  intro h
  rw [show parse_log logFixture = [logHashA, logHashB, logHashF] from by decide]
  simp

/-- C7 counterexample: `REGEX_OBJECT_PATH` is unanchored, so the path
`objects/aa/` followed by 39 hex characters — which is not of the exact
shape `objects/<2-hex>/<38-hex>` — is still dispatched to `parse_object`. -/
theorem c7_counterexample :
    objectDispatch c7Name = true ∧ exactObjectShape c7Name = false := by
  decide

theorem regex_match_of_suffix (pre ys : Bytes) (h : regex_object_path_match ys = true) :
    regex_object_path_match (pre ++ ys) = true := by
  induction pre with
  | nil => simpa using h
  | cons b rest ih =>
    show regex_object_path_match (b :: (rest ++ ys)) = true
    unfold regex_object_path_match
    rw [ih]
    simp

/-- C7 amended: the dispatch guard is `starts_with("objects/")` together
with an unanchored search for `<2-hex>/<38-hex>`; every path of the exact
shape `objects/<2-hex>/<38-hex>` is dispatched to `parse_object`, but so are
some other paths under `objects/` that merely contain the pattern (see the
counterexample); `objects/info/packs` contains no such pattern and is not
dispatched. -/
theorem c7_exact_shape_dispatched (n : Bytes) (h : exactObjectShape n = true) :
    objectDispatch n = true := by
  unfold exactObjectShape at h
  rw [Bool.and_eq_true] at h
  obtain ⟨h8, hrest⟩ := h
  unfold objectDispatch
  rw [Bool.and_eq_true]
  refine ⟨h8, ?_⟩
  have hn : n = n.take 8 ++ n.drop 8 := (List.take_append_drop 8 n).symm
  rw [hn]
  apply regex_match_of_suffix
  rcases hd : n.drop 8 with _ | ⟨a, tl⟩
  · rw [hd] at hrest; simp at hrest
  · rcases tl with _ | ⟨b, tl2⟩
    · rw [hd] at hrest; simp at hrest
    · rcases tl2 with _ | ⟨s, tl3⟩
      · rw [hd] at hrest; simp at hrest
      · rw [hd] at hrest
        simp only [Bool.and_eq_true, decide_eq_true_eq] at hrest
        obtain ⟨⟨⟨⟨hA, hB⟩, hS⟩, hLen⟩, hAll⟩ := hrest
        unfold regex_object_path_match
        have htk : tl3.take 38 = tl3 := by
          rw [← hLen]
          exact List.take_length tl3
        have hobj : objMatchAt (a :: b :: s :: tl3) = true := by
          unfold objMatchAt
          simp only [Bool.and_eq_true, decide_eq_true_eq]
          exact ⟨⟨⟨⟨hA, hB⟩, hS⟩, by omega⟩, by rw [htk]; exact hAll⟩
        rw [hobj]
        simp

/-- C7 witness: the exactly-shaped path `objects/cc/<38 c>` is dispatched. -/
theorem c7_witness : objectDispatch c7ExactName = true :=
  c7_exact_shape_dispatched c7ExactName (by decide)

/-- C9: the claim is right and the code is wrong — a downloaded commit
object whose `tree` header remainder is `abc` (length 3) reaches
`hash_to_url`, whose `assert_eq!(hash.len(), 40)` fails: the call panics
(modelled as `QOutcome.panic`), killing the spawned task. -/
theorem c9_hash_to_url_assert_fails :
    queue_new_references c9Name c9File = QResult.mk [] QOutcome.panic ∧
    parse_object c9File = some (GitObject.Commit [ascii "abc"]) := by
  decide

/-- C10: `parse_object` classifies from the 6 peeked bytes alone; whenever
they begin with `blob` it returns `Blob` for every state of the full
decompression — including `full = none`, a zlib stream that is corrupt or
truncated past the peeked prefix. -/
theorem c10_blob_peek_only (raw : Bytes) (full : Option Bytes) (a b : Nat) :
    parse_object (FileBytes.mk raw (some [98, 108, 111, 98, a, b]) full) = some GitObject.Blob :=
  rfl

theorem crawl_nodup_aux (oracle : List (Bytes × FileBytes)) (cache queue : List Bytes) :
    (crawl oracle cache queue).2.Nodup ∧ ∀ p ∈ (crawl oracle cache queue).2, p ∉ cache := by
  induction cache, queue using crawl.induct oracle with
  | case1 cache => simp [crawl]
  | case2 cache p rest hp ih =>
    simp only [crawl, dif_pos hp]
    exact ih
  | case3 cache p rest hp children ih =>
    simp only [crawl, dif_neg hp]
    refine ⟨List.Nodup.cons (fun hmem => (ih.2 p hmem) (List.mem_cons_self p cache)) ih.1, ?_⟩
    intro x hx
    rcases List.mem_cons.mp hx with h | h
    · exact h ▸ hp
    · exact fun hc => (ih.2 x h) (List.mem_cons_of_mem _ hc)

/-- C1: across a whole crawl run, every candidate path is fetched at most
once — the receive loop (the sole owner of the dedup cache) skips any
message whose path is already cached and inserts the path before fetching,
so the list of started downloads has no duplicates, for every server
behavior and however often a path is re-proposed by tree entries, commit
parents, reflogs or refs. -/
theorem c1_path_fetched_at_most_once (oracle : List (Bytes × FileBytes)) :
    (download_all oracle).2.Nodup :=
  (crawl_nodup_aux oracle [] start_files).1

theorem crawl_cache_subset (oracle : List (Bytes × FileBytes)) (cache queue : List Bytes) :
    ∀ x ∈ cache, x ∈ (crawl oracle cache queue).1 := by
  induction cache, queue using crawl.induct oracle with
  | case1 cache => intro x hx; simpa [crawl] using hx
  | case2 cache p rest hp ih =>
    intro x hx
    simp only [crawl, dif_pos hp]
    exact ih x hx
  | case3 cache p rest hp children ih =>
    intro x hx
    simp only [crawl, dif_neg hp]
    exact ih x (List.mem_cons_of_mem _ hx)

theorem crawl_processes_aux (oracle : List (Bytes × FileBytes)) (cache queue : List Bytes) :
    ∀ p ∈ queue, p ∈ (crawl oracle cache queue).1 ∧
      (p ∉ cache → p ∈ (crawl oracle cache queue).2) := by
  induction cache, queue using crawl.induct oracle with
  | case1 cache => intro p hp; simp at hp
  | case2 cache m rest hm ih =>
    intro p hp
    simp only [crawl, dif_pos hm]
    rcases List.mem_cons.mp hp with rfl | h
    · exact ⟨crawl_cache_subset oracle cache rest p hm, fun hc => absurd hm hc⟩
    · exact ih p h
  | case3 cache m rest hm children ih =>
    intro p hp
    simp only [crawl, dif_neg hm]
    rcases List.mem_cons.mp hp with rfl | h
    · constructor
      · exact crawl_cache_subset oracle (p :: cache) _ p (List.mem_cons_self p cache)
      · intro _
        exact List.mem_cons_self p _
    · have hih := ih p (List.mem_append_left children h)
      constructor
      · exact hih.1
      · intro hc
        by_cases hpm : p = m
        · subst hpm
          exact List.mem_cons_self p _
        · have hnc : p ∉ m :: cache := by simp [List.mem_cons, hpm, hc]
          exact List.mem_cons_of_mem _ (hih.2 hnc)

/-- C8: a failed download (404 or transport error — a path outside the
oracle), or a failed parse (which yields no follow-up messages), stops only
that path's branch: whatever the oracle answers, every path ever queued is
still claimed into the cache, and every queued path not already claimed
still has its download started; the receive loop itself never aborts. -/
theorem c8_failure_isolation (oracle : List (Bytes × FileBytes)) (cache queue : List Bytes)
    (p : Bytes) (hq : p ∈ queue) :
    p ∈ (crawl oracle cache queue).1 ∧ (p ∉ cache → p ∈ (crawl oracle cache queue).2) :=
  crawl_processes_aux oracle cache queue p hq

/-- C8 witness: with a server that answers nothing (every fetch fails), a
queued path is still claimed and its download still attempted. -/
theorem c8_witness :
    ascii "HEAD" ∈ (crawl [] [] [ascii "HEAD"]).1 ∧
    (ascii "HEAD" ∉ ([] : List Bytes) → ascii "HEAD" ∈ (crawl [] [] [ascii "HEAD"]).2) :=
  c8_failure_isolation [] [] [ascii "HEAD"] (ascii "HEAD") (by simp)

theorem step_preserves_concInv (N : Nat) (a b : Cfg) (hstep : Step N a b)
    (hinv : concInv N a) : concInv N b := by
  cases hstep with
  | skip p q c r f h =>
    exact ⟨fun _ => hinv.1 rfl, fun hw => absurd hw (by simp)⟩
  | spawn p q c r f h =>
    have h1 : r + f < N := hinv.1 rfl
    refine ⟨fun hr => absurd hr (by simp), fun _ => ?_⟩
    show r + 1 + f ≤ N
    omega
  | finishTask ph q c r f =>
    constructor
    · intro hr
      have h1 : r + 1 + f < N := hinv.1 hr
      show r + (f + 1) < N
      omega
    · intro hw
      have h1 : r + 1 + f ≤ N := hinv.2 hw
      show r + (f + 1) ≤ N
      omega
  | retain q c r f =>
    refine ⟨fun hr => absurd hr (by simp), fun _ => ?_⟩
    have h1 : r + f ≤ N := hinv.2 rfl
    show r + 0 ≤ N
    omega
  | waitExit q c r f h =>
    exact ⟨fun _ => h, fun hw => absurd hw (by simp)⟩
  | produce ph q c m r f =>
    exact hinv

theorem reachable_concInv (N : Nat) (hN : 1 ≤ N) (c : Cfg)
    (h : Reachable N initCfg c) : concInv N c := by
  unfold Reachable at h
  induction h with
  | refl =>
    refine ⟨fun _ => ?_, fun hw => absurd hw (by decide)⟩
    show initCfg.running + initCfg.finished < N
    show 0 + 0 < N
    omega
  | tail hsteps hstep ih =>
    exact step_preserves_concInv N _ _ hstep ih

/-- C3 amended: for every bound `N ≥ 1`, in every configuration reachable
from the start of `download_all` the number of concurrently executing
fetch+process tasks is at most `N` — the spawn happens only from the top of
the receive loop, which after any earlier spawn is re-entered only once the
inner `while threads.len() >= N` loop has observed fewer than `N` task
handles. For `N = 0` the claim fails (see the counterexample): the bound is
only checked after a task was already spawned. -/
theorem c3_bounded_concurrency (N : Nat) (hN : 1 ≤ N) (c : Cfg)
    (h : Reachable N initCfg c) : c.running ≤ N := by
  have hinv := reachable_concInv N hN c h
  cases hc : c.phase with
  | recv =>
    have := hinv.1 hc
    omega
  | wait =>
    have := hinv.2 hc
    omega

/-- C3 witness: with bound 1, the start configuration is reachable and runs
at most one task. -/
theorem c3_witness : initCfg.running ≤ 1 :=
  c3_bounded_concurrency 1 (by decide) initCfg Relation.ReflTransGen.refl

/-- C3 counterexample: with the configured bound `N = 0` (a legal `u16`
value of the `--tasks` option), the very first message spawns a task before
the bound is ever consulted, reaching a configuration with one executing
fetch+process operation — more than the configured bound 0. -/
theorem c3_counterexample :
    Reachable 0 initCfg (Cfg.mk Phase.wait start_files.tail [ascii "info/exclude"] 1 0) ∧
    (Cfg.mk Phase.wait start_files.tail [ascii "info/exclude"] 1 0).running = 1 := by
  constructor
  · have h0 : initCfg = Cfg.mk Phase.recv (ascii "info/exclude" :: start_files.tail) [] 0 0 := rfl
    rw [Reachable, h0]
    exact Relation.ReflTransGen.single
      (Step.spawn (ascii "info/exclude") start_files.tail [] 0 0 (by simp))
  · rfl

theorem splitOnce_some_eq (c : Char) (l : List Char) :
    ∀ a b : List Char, splitOnce c l = some (a, b) → l = a ++ c :: b := by
  induction l with
  | nil => intro a b h; simp [splitOnce] at h
  | cons x xs ih =>
    intro a b h
    unfold splitOnce at h
    by_cases hx : x = c
    · rw [if_pos hx] at h
      cases h
      simp [hx]
    · rw [if_neg hx] at h
      cases hs : splitOnce c xs with
      | none => rw [hs] at h; simp at h
      | some p =>
        rw [hs] at h
        simp only [Option.map_some'] at h
        have h2 := Option.some.inj h
        have ha : a = x :: p.1 := (congrArg Prod.fst h2).symm
        have hb : b = p.2 := (congrArg Prod.snd h2).symm
        subst ha
        subst hb
        have hxs := ih p.1 p.2 hs
        rw [List.cons_append, ← hxs]

theorem commitLineHash_eq_spec (l : List Char) :
    commitLineHash l =
      (if l.take 5 = ("tree ").toList then some (utf8Encode (l.drop 5))
       else if l.take 7 = ("parent ").toList then some (utf8Encode (l.drop 7))
       else none) := by
  by_cases h5 : l.take 5 = ("tree ").toList
  · have hl : l = 't' :: 'r' :: 'e' :: 'e' :: ' ' :: l.drop 5 := by
      conv_lhs => rw [← List.take_append_drop 5 l]
      rw [h5]
      rfl
    rw [if_pos h5]
    conv_lhs => rw [hl]
    simp [commitLineHash, splitOnce]
  · by_cases h7 : l.take 7 = ("parent ").toList
    · have hl : l = 'p' :: 'a' :: 'r' :: 'e' :: 'n' :: 't' :: ' ' :: l.drop 7 := by
        conv_lhs => rw [← List.take_append_drop 7 l]
        rw [h7]
        rfl
      rw [if_neg h5, if_pos h7]
      conv_lhs => rw [hl]
      simp [commitLineHash, splitOnce]
    · rw [if_neg h5, if_neg h7]
      unfold commitLineHash
      cases hsp : splitOnce ' ' l with
      | none => rfl
      | some p =>
        obtain ⟨w, rest⟩ := p
        have hl := splitOnce_some_eq ' ' l w rest hsp
        by_cases hw : w = ("tree").toList
        · subst hw
          have ht : l.take 5 = ("tree ").toList := by rw [hl]; rfl
          exact absurd ht h5
        · by_cases hw2 : w = ("parent").toList
          · subst hw2
            have ht : l.take 7 = ("parent ").toList := by rw [hl]; rfl
            exact absurd ht h7
          · have hw' : w ≠ ['t', 'r', 'e', 'e'] := hw
            have hw2' : w ≠ ['p', 'a', 'r', 'e', 'n', 't'] := hw2
            simp [hsp, hw', hw2']

/-- C5: for every commit object (peeked type `commit`, full decompression
succeeding, a NUL header separator present with `body` after it),
`parse_object` returns `Commit` of exactly the verbatim remainders of the
body's header lines that begin with `tree ` or `parent `, in order, taken
only from the lines before the first blank line — text after the blank line
(the commit message) never contributes, whatever it contains. -/
theorem c5_commit_header_hashes (raw full body : Bytes)
    (h : split_object_at_zero full = some body) :
    parse_object (FileBytes.mk raw (some (ascii "commit")) (some full)) =
      some (GitObject.Commit (commitHeaderHashes body)) := by
  have hpk : ascii "commit" = [99, 111, 109, 109, 105, 116] := rfl
  simp only [parse_object, peek_object_type, hpk, h]
  rw [commitHeaderHashes, show commitLineHash = (fun line : List Char =>
      if line.take 5 = ("tree ").toList then some (utf8Encode (line.drop 5))
      else if line.take 7 = ("parent ").toList then some (utf8Encode (line.drop 7))
      else none) from funext commitLineHash_eq_spec]

/-- C5 witness: on the fixture body `tree aaaa`, `parent bbbb`, blank line,
then a message containing the decoy `parent cccc`, the result is exactly
`Commit [aaaa, bbbb]`. -/
theorem c5_witness :
    parse_object (FileBytes.mk [] (some (ascii "commit")) (some c5Full)) =
      some (GitObject.Commit (commitHeaderHashes c5Body)) ∧
    commitHeaderHashes c5Body = [ascii "aaaa", ascii "bbbb"] :=
  ⟨c5_commit_header_hashes [] c5Full c5Body (by decide), by decide⟩

theorem take_len_append (a b : List Char) (n : Nat) (h : a.length = n) : (a ++ b).take n = a := by
  subst h
  exact List.take_left a b

theorem drop_len_append (a b : List Char) (n : Nat) (h : a.length = n) : (a ++ b).drop n = b := by
  subst h
  exact List.drop_left a b

theorem splitSlashes_ne_nil (l : List Char) : splitSlashes l ≠ [] := by
  cases l with
  | nil => simp [splitSlashes]
  | cons c rest =>
    unfold splitSlashes
    by_cases h : c = '/' ∨ c = '\\'
    · simp [h]
    · rw [if_neg h]
      cases hs : splitSlashes rest <;> simp

theorem splitSlashes_refs_heads (name : List Char) :
    splitSlashes (("refs/heads/").toList ++ name) =
      ("refs").toList :: ("heads").toList :: splitSlashes name := by
  rcases hs : splitSlashes name with _ | ⟨p, ps⟩
  · exact absurd hs (splitSlashes_ne_nil name)
  · show splitSlashes ('r' :: 'e' :: 'f' :: 's' :: '/' :: 'h' :: 'e' :: 'a' :: 'd' :: 's' :: '/' :: name) = _
    simp [splitSlashes, hs]

theorem dropWhile_append_of_all (p : Char → Bool) (a b : List Char) (h : ∀ y ∈ a, p y = true) :
    List.dropWhile p (a ++ b) = List.dropWhile p b := by
  induction a with
  | nil => rfl
  | cons y ys ih =>
    rw [List.cons_append, List.dropWhile_cons, if_pos (h y (List.mem_cons_self y ys))]
    exact ih (fun z hz => h z (List.mem_cons_of_mem _ hz))

theorem trimEnd_append_ws (x ws : List Char) (h : ws.all isWs = true) :
    trimEnd (x ++ ws) = trimEnd x := by
  unfold trimEnd
  rw [List.reverse_append, dropWhile_append_of_all isWs ws.reverse x.reverse]
  intro y hy
  exact (List.all_eq_true.mp h) y (List.mem_reverse.mp hy)

theorem trimEnd_last_not_ws (y : List Char) (c : Char) (h : isWs c = false) :
    trimEnd (y ++ [c]) = y ++ [c] := by
  unfold trimEnd
  rw [List.reverse_append, show List.reverse [c] = [c] from rfl, List.singleton_append,
    List.dropWhile_cons, h]
  simp

theorem trimEnd_decomp (l : List Char) :
    l = trimEnd l ++ (l.reverse.takeWhile isWs).reverse ∧
    ((l.reverse.takeWhile isWs).reverse).all isWs = true := by
  constructor
  · conv_lhs => rw [← List.reverse_reverse l,
      ← List.takeWhile_append_dropWhile (p := isWs) (l := l.reverse)]
    rw [List.reverse_append]
    rfl
  · rw [List.all_eq_true]
    intro x hx
    exact List.mem_takeWhile_imp (List.mem_reverse.mp hx)

theorem utf8Encode_append (a b : List Char) :
    utf8Encode (a ++ b) = utf8Encode a ++ utf8Encode b := by
  unfold utf8Encode
  rw [List.map_append, List.flatten_append]

/-- C4 amended: `parse_head` succeeds exactly on UTF-8 inputs of the form
`ref: refs/heads/<name>` followed by (possibly empty) trailing white space,
where `<name>` is non-empty, contains no white space, and has no `..`
segment when split on `/` and `\` — the trailing newline of the claim is
optional (any trailing white space is trimmed), and names containing white
space are rejected by the `\S+` of `REGEX_REFS_PATH` even when they match
the claimed shape. -/
theorem c4_parse_head_characterization (data : Bytes) :
    (parse_head data).isSome = true ↔
      ∃ (s name ws : List Char),
        utf8Decode data = some s ∧
        s = ("ref: refs/heads/").toList ++ name ++ ws ∧
        name ≠ [] ∧
        name.all (fun c => !isWs c) = true ∧
        ws.all isWs = true ∧
        (splitSlashes name).all (fun seg => decide (seg ≠ ['.', '.'])) = true := by
  constructor
  · intro hsome
    simp only [parse_head] at hsome
    cases hd : utf8Decode data with
    | none => rw [hd] at hsome; simp at hsome
    | some content =>
      rw [hd] at hsome
      simp only [] at hsome
      by_cases h5 : content.take 5 = ("ref: ").toList
      · rw [if_pos h5] at hsome
        by_cases hrm : refsPathMatch (trimEnd (content.drop 5)) = true
        · rw [if_pos hrm] at hsome
          by_cases hdd : (splitSlashes (trimEnd (content.drop 5))).any
              (fun seg => seg = ['.', '.']) = true
          · rw [if_pos hdd] at hsome
            simp at hsome
          · obtain ⟨hdecomp, hwsall⟩ := trimEnd_decomp (content.drop 5)
            unfold refsPathMatch at hrm
            simp only [Bool.and_eq_true, decide_eq_true_eq] at hrm
            obtain ⟨⟨h11, hne⟩, hnw⟩ := hrm
            refine ⟨content, (trimEnd (content.drop 5)).drop 11,
              ((content.drop 5).reverse.takeWhile isWs).reverse, rfl, ?_, hne, hnw, hwsall, ?_⟩
            · conv_lhs => rw [← List.take_append_drop 5 content]
              rw [h5]
              conv_lhs => rw [hdecomp]
              conv_lhs => rw [show trimEnd (content.drop 5) =
                (trimEnd (content.drop 5)).take 11 ++ (trimEnd (content.drop 5)).drop 11 from
                  (List.take_append_drop 11 _).symm]
              rw [h11,
                show ("ref: refs/heads/").toList = ("ref: ").toList ++ ("refs/heads/").toList
                  from rfl]
              simp [List.append_assoc]
            · rw [List.all_eq_true]
              intro seg hseg
              simp only [decide_eq_true_eq]
              intro hcontra
              apply hdd
              rw [List.any_eq_true]
              refine ⟨seg, ?_, by simp [hcontra]⟩
              have ht' : trimEnd (content.drop 5) =
                  ("refs/heads/").toList ++ (trimEnd (content.drop 5)).drop 11 := by
                conv_lhs => rw [← List.take_append_drop 11 (trimEnd (content.drop 5))]
                rw [h11]
              rw [ht', splitSlashes_refs_heads]
              exact List.mem_cons_of_mem _ (List.mem_cons_of_mem _ hseg)
        · rw [if_neg hrm] at hsome
          simp at hsome
      · rw [if_neg h5] at hsome
        simp at hsome
  · rintro ⟨s, name, ws, hd, hs, hne, hnw, hws, hdd⟩
    subst hs
    have hsplit : ("ref: refs/heads/").toList = ("ref: ").toList ++ ("refs/heads/").toList := rfl
    simp only [parse_head, hd]
    have h5 : ((("ref: refs/heads/").toList ++ name ++ ws).take 5) = ("ref: ").toList := by
      rw [hsplit, List.append_assoc, List.append_assoc]
      exact take_len_append _ _ 5 rfl
    rw [if_pos h5]
    have hdrop : (("ref: refs/heads/").toList ++ name ++ ws).drop 5 =
        ("refs/heads/").toList ++ name ++ ws := by
      rw [hsplit, List.append_assoc, List.append_assoc,
        drop_len_append (("ref: ").toList) (("refs/heads/").toList ++ (name ++ ws)) 5 rfl,
        ← List.append_assoc]
    rw [hdrop]
    obtain ⟨y, c, hyc⟩ : ∃ y c, name = y ++ [c] :=
      ⟨name.dropLast, name.getLast hne, (List.dropLast_append_getLast hne).symm⟩
    have hcnw : isWs c = false := by
      have hc := (List.all_eq_true.mp hnw) c
        (by rw [hyc]; exact List.mem_append_right _ (List.mem_singleton_self c))
      simpa using hc
    have htrim : trimEnd (("refs/heads/").toList ++ name ++ ws) =
        ("refs/heads/").toList ++ name := by
      rw [trimEnd_append_ws _ _ hws, hyc, ← List.append_assoc]
      exact trimEnd_last_not_ws _ c hcnw
    rw [htrim]
    have hrm : refsPathMatch (("refs/heads/").toList ++ name) = true := by
      unfold refsPathMatch
      simp only [Bool.and_eq_true, decide_eq_true_eq]
      refine ⟨⟨take_len_append _ _ 11 rfl, ?_⟩, ?_⟩
      · rw [drop_len_append (("refs/heads/").toList) name 11 rfl]
        exact hne
      · rw [drop_len_append (("refs/heads/").toList) name 11 rfl]
        exact hnw
    rw [if_pos hrm]
    have hany : (splitSlashes (("refs/heads/").toList ++ name)).any
        (fun seg => seg = ['.', '.']) = false := by
      rw [splitSlashes_refs_heads, List.any_eq_false]
      intro seg hseg
      simp only [decide_eq_true_eq]
      rcases List.mem_cons.mp hseg with rfl | h2
      · decide
      · rcases List.mem_cons.mp h2 with rfl | h3
        · decide
        · have h4 := (List.all_eq_true.mp hdd) seg h3
          simpa using h4
    rw [if_neg (by rw [hany]; simp : ¬(splitSlashes (("refs/heads/").toList ++ name)).any
        (fun seg => seg = ['.', '.']) = true)]
    simp

/-- C4 counterexample: the input `ref: refs/heads/main` without a trailing
newline is accepted by `parse_head` although it is not of the claimed form
`ref: refs/heads/<name>\n` for any `<name>` (its last byte is `n`, not a
newline). -/
theorem c4_counterexample :
    (parse_head (ascii "ref: refs/heads/main")).isSome = true ∧
    ∀ name : List Char,
      ascii "ref: refs/heads/main" ≠
        utf8Encode (("ref: refs/heads/").toList ++ name ++ ['\n']) := by
  constructor
  · decide
  · intro name heq
    have h1 : (utf8Encode (("ref: refs/heads/").toList ++ name ++ ['\n'])).getLast? =
        some 10 := by
      rw [utf8Encode_append, show utf8Encode ['\n'] = [10] from rfl]
      exact List.getLast?_concat _
    rw [← heq] at h1
    have h2 : (ascii "ref: refs/heads/main").getLast? = some 110 := by decide
    rw [h2] at h1
    simp at h1
